import Mathlib

/-!
Verification of the fixed-width numeric column primitive
(`ColumnVector<T>`, dbms/src/Columns/ColumnVector.cpp) against its
natural-language specification.

The column is embedded shallowly: the element buffer `data` is a
`List α`, filter masks / permutations / offsets are `List Nat`, byte
buffers (for the byte-exact operations `cloneResized`,
`serializeValueIntoArena`, `deserializeAndInsertFromArena`) are
`List Nat` of byte values, and the two error kinds raised by the code
(`PARAMETER_OUT_OF_BOUND`, `SIZES_OF_COLUMNS_DOESNT_MATCH`) become an
error enumeration with fallible operations returning `Except Err`.
-/

namespace ColumnVector

/-- The two error codes thrown by ColumnVector.cpp
(`ErrorCodes::PARAMETER_OUT_OF_BOUND` and
`ErrorCodes::SIZES_OF_COLUMNS_DOESNT_MATCH`). -/
inductive Err where
  | parameterOutOfBound
  | sizesOfColumnsDoesntMatch
deriving DecidableEq, Repr

/-! ## Selection: `filter(filt, result_size_hint)`

The source compiles the `__SSE2__` fast path: the first
`size / 16 * 16` mask bytes are processed in 16-byte blocks.  For each
block the code computes `_mm_movemask_epi8(_mm_cmpgt_epi8(block, 0))`:
bit `i` of the mask is set iff byte `i`, read as a SIGNED 8-bit
integer, is `> 0`, i.e. iff the byte value lies in `1..127`.  A block
with mask `0` is skipped, a block with mask `0xFFFF` is bulk-copied,
any other block falls back to an elementwise scan testing plain byte
truthiness (`byte != 0`).  The tail (`size mod 16` bytes) is always
scanned elementwise. -/

/-- Bit `i` of `_mm_movemask_epi8(_mm_cmpgt_epi8(block, zero16))` is set:
the mask byte, reinterpreted as a signed 8-bit integer, is `> 0`.
Mask bytes are byte values (`< 256`). -/
def sseBitSet (b : Nat) : Bool :=
  decide (0 < b ∧ b < 128)

/-- The naive elementwise filter: keep exactly the rows `i` with
`filt[i] != 0`, in original order.  This is both the scalar loop of the
source (the mixed-block branch and the tail loop, which test
`if (*filt_pos)`) and the specification's reference algorithm. -/
def filterElementwise {α : Type} : List α → List Nat → List α
  | x :: xs, b :: bs => if b ≠ 0 then x :: filterElementwise xs bs else filterElementwise xs bs
  | _, _ => []

/-- One 16-byte block of the SSE2 fast path: skip if the movemask is 0,
bulk-copy if it is 0xFFFF, otherwise scan the block elementwise. -/
def filterBlock {α : Type} (d16 : List α) (f16 : List Nat) : List α :=
  if f16.all (fun b => !sseBitSet b) then
    []
  else if f16.all (fun b => sseBitSet b) then
    d16
  else
    filterElementwise d16 f16

/-- The filtering loop, fuel-indexed so that it is structurally
recursive (the fuel is the initial number of mask bytes, an upper bound
on the number of 16-byte blocks): 16-byte blocks while at least 16 mask
bytes remain, then the elementwise tail loop. -/
def filterImplGo {α : Type} : Nat → List α → List Nat → List α
  | fuel + 1, d, f =>
    if 16 ≤ f.length then
      filterBlock (d.take 16) (f.take 16) ++ filterImplGo fuel (d.drop 16) (f.drop 16)
    else
      filterElementwise d f
  | 0, d, f => filterElementwise d f

/-- The filtering loop of the source: the first `size / 16 * 16` mask
bytes in 16-byte blocks, then the elementwise tail. -/
def filterImpl {α : Type} (data : List α) (filt : List Nat) : List α :=
  filterImplGo filt.length data filt

/-- `ColumnVector<T>::filter(filt, result_size_hint)`.  Throws
`SIZES_OF_COLUMNS_DOESNT_MATCH` when the mask length differs from the
column length; otherwise runs the block/tail loop.  `result_size_hint`
only pre-reserves capacity in the C++ (`res_data.reserve`), which has
no observable effect on the value sequence, so it is carried but
unused. -/
def filter {α : Type} (data : List α) (filt : List Nat) (result_size_hint : Int) : Except Err (List α) :=
  if data.length ≠ filt.length then
    .error .sizesOfColumnsDoesntMatch
  else
    let _hint := result_size_hint
    .ok (filterImpl data filt)

/-! ### Equivalence of the batched filter with the elementwise filter -/

lemma filterElementwise_all_zero {α : Type} :
    ∀ (d : List α) (f : List Nat), (∀ b ∈ f, b = 0) → filterElementwise d f = [] := by
  intro d f
  induction f generalizing d with
  | nil => intro _; cases d <;> rfl
  | cons b bs ih =>
    intro hz
    cases d with
    | nil => rfl
    | cons x xs =>
      have hb : b = 0 := hz b (List.mem_cons_self b bs)
      simp only [filterElementwise, hb, ne_eq, not_true_eq_false, if_false]
      exact ih xs (fun c hc => hz c (List.mem_cons_of_mem b hc))

lemma filterElementwise_all_nonzero {α : Type} :
    ∀ (d : List α) (f : List Nat), d.length = f.length → (∀ b ∈ f, b ≠ 0) →
      filterElementwise d f = d := by
  intro d f
  induction f generalizing d with
  | nil =>
    intro hlen _
    cases d with
    | nil => rfl
    | cons x xs => simp at hlen
  | cons b bs ih =>
    intro hlen hnz
    cases d with
    | nil => simp at hlen
    | cons x xs =>
      have hb : b ≠ 0 := hnz b (List.mem_cons_self b bs)
      simp only [filterElementwise, ne_eq, hb, not_false_eq_true, if_true]
      congr 1
      exact ih xs (by simpa using hlen) (fun c hc => hnz c (List.mem_cons_of_mem b hc))

lemma filterElementwise_append {α : Type} :
    ∀ (d₁ : List α) (f₁ : List Nat) (d₂ : List α) (f₂ : List Nat),
      d₁.length = f₁.length →
      filterElementwise (d₁ ++ d₂) (f₁ ++ f₂) =
        filterElementwise d₁ f₁ ++ filterElementwise d₂ f₂ := by
  intro d₁ f₁
  induction f₁ generalizing d₁ with
  | nil =>
    intro d₂ f₂ hlen
    cases d₁ with
    | nil => simp [filterElementwise]
    | cons x xs => simp at hlen
  | cons b bs ih =>
    intro d₂ f₂ hlen
    cases d₁ with
    | nil => simp at hlen
    | cons x xs =>
      simp only [List.cons_append, filterElementwise]
      by_cases hb : b ≠ 0
      · rw [if_pos hb, if_pos hb, List.cons_append]
        congr 1
        exact ih xs d₂ f₂ (by simpa using hlen)
      · rw [if_neg hb, if_neg hb]
        exact ih xs d₂ f₂ (by simpa using hlen)

/-- On a block all of whose bytes are `< 128`, the three-way SSE2
dispatch agrees with the elementwise filter. -/
lemma filterBlock_eq {α : Type} (d16 : List α) (f16 : List Nat)
    (hlen : d16.length = f16.length) (hb : ∀ b ∈ f16, b < 128) :
    filterBlock d16 f16 = filterElementwise d16 f16 := by
  unfold filterBlock
  by_cases hz : f16.all (fun b => !sseBitSet b)
  · rw [if_pos hz]
    refine (filterElementwise_all_zero d16 f16 ?_).symm
    intro b hbmem
    have h1 := List.all_eq_true.mp hz b hbmem
    have h2 := hb b hbmem
    simp only [sseBitSet, Bool.not_eq_true', decide_eq_false_iff_not, not_and, not_lt] at h1
    omega
  · rw [if_neg hz]
    by_cases ho : f16.all (fun b => sseBitSet b)
    · rw [if_pos ho]
      refine (filterElementwise_all_nonzero d16 f16 hlen ?_).symm
      intro b hbmem
      have h1 := List.all_eq_true.mp ho b hbmem
      simp only [sseBitSet, decide_eq_true_eq] at h1
      omega
    · rw [if_neg ho]

lemma filterImplGo_eq {α : Type} :
    ∀ (fuel : Nat) (d : List α) (f : List Nat), f.length ≤ fuel →
      d.length = f.length → (∀ b ∈ f, b < 128) →
      filterImplGo fuel d f = filterElementwise d f := by
  intro fuel
  induction fuel with
  | zero =>
    intro d f hfuel hlen hb
    rfl
  | succ n ih =>
    intro d f hfuel hlen hb
    simp only [filterImplGo]
    by_cases h16 : 16 ≤ f.length
    · rw [if_pos h16]
      have hlen_take : (d.take 16).length = (f.take 16).length := by
        simp only [List.length_take]
        omega
      rw [filterBlock_eq (d.take 16) (f.take 16) hlen_take
          (fun b hbmem => hb b (List.mem_of_mem_take hbmem))]
      rw [ih (d.drop 16) (f.drop 16)
          (by simp only [List.length_drop]; omega)
          (by simp only [List.length_drop]; omega)
          (fun b hbmem => hb b (List.mem_of_mem_drop hbmem))]
      rw [← filterElementwise_append (d.take 16) (f.take 16) (d.drop 16) (f.drop 16) hlen_take]
      rw [List.take_append_drop, List.take_append_drop]
    · rw [if_neg h16]

instance {ε α : Type} [DecidableEq ε] [DecidableEq α] : DecidableEq (Except ε α) :=
  fun a b =>
    match a, b with
    | .error e, .error e' =>
      if h : e = e' then isTrue (by rw [h]) else isFalse (by intro hc; injection hc; contradiction)
    | .error _, .ok _ => isFalse (by intro hc; exact Except.noConfusion hc)
    | .ok _, .error _ => isFalse (by intro hc; exact Except.noConfusion hc)
    | .ok x, .ok y =>
      if h : x = y then isTrue (by rw [h]) else isFalse (by intro hc; injection hc; contradiction)

/-- C1 counterexample: the claim fails as stated.  On a column of 16
rows with a mask of 16 bytes all equal to 128, every mask byte is
nonzero, so the elementwise reference keeps all 16 rows; but the SSE2
block dispatch reads the bytes as signed 8-bit integers, computes
movemask 0, and skips the whole block, so `filter` returns the empty
column. -/
theorem filter_simd_counterexample :
    filter (List.range 16) (List.replicate 16 128) 0 = Except.ok [] ∧
    filterElementwise (List.range 16) (List.replicate 16 128) = List.range 16 ∧
    filter (List.range 16) (List.replicate 16 128) 0 ≠
      Except.ok (filterElementwise (List.range 16) (List.replicate 16 128)) := by
  refine ⟨by decide, by decide, by decide⟩

/-- C1 (amended): for every column, every size hint, and every filter
mask of the same length as the column all of whose bytes are `< 128`
(in particular every 0/1 boolean mask), `filter` returns exactly the
sequence of values kept by the naive elementwise filter (rows `i` with
`mask[i] != 0`, in original order) — including masks of length zero,
all-zero, all-one, and lengths that are not a multiple of the 16-byte
batch size. -/
theorem filter_refines_elementwise {α : Type} (data : List α) (filt : List Nat)
    (hint : Int) (hlen : filt.length = data.length) (hb : ∀ b ∈ filt, b < 128) :
    filter data filt hint = Except.ok (filterElementwise data filt) := by
  unfold filter
  rw [if_neg (by omega)]
  exact congrArg Except.ok (filterImplGo_eq filt.length data filt (le_refl _) hlen.symm hb)

/-- Witness for C1 (amended) at a concrete 20-row column and a mixed
mask of length 20 (one full 16-byte block plus a 4-byte tail). -/
theorem filter_refines_elementwise_witness :
    (List.replicate 8 1 ++ List.replicate 8 0 ++ [0, 127, 0, 5] : List Nat).length =
      (List.range 20).length ∧
    (∀ b ∈ (List.replicate 8 1 ++ List.replicate 8 0 ++ [0, 127, 0, 5] : List Nat), b < 128) ∧
    filter (List.range 20) (List.replicate 8 1 ++ List.replicate 8 0 ++ [0, 127, 0, 5]) 3 =
      Except.ok (filterElementwise (List.range 20)
        (List.replicate 8 1 ++ List.replicate 8 0 ++ [0, 127, 0, 5])) :=
  ⟨by decide, by decide,
    filter_refines_elementwise (List.range 20)
      (List.replicate 8 1 ++ List.replicate 8 0 ++ [0, 127, 0, 5]) 3
      (by decide) (by decide)⟩

/-! ## Bulk append: `insertRangeFrom(src, start, length)`

The bounds check of the source is `start + length > src_vec.data.size()`
where `start` and `length` are `size_t`, so the sum is computed in
wrapping 64-bit arithmetic — rendered with an explicit `% 2 ^ 64`.
When `start + length ≥ 2 ^ 64` the sum wraps around, the check can
pass spuriously, and the subsequent `memcpy` reads out of the source
buffer (undefined behavior); the `.ok` payload of the model therefore
describes the C++ only when `start + length ≤ src.length` genuinely
holds, and the theorems assert nothing about the payload in the
spurious-pass case.  In the pure embedding the unmodified destination
is returned only inside `.ok`; the error branch yields no column at
all, so no partial append is observable. -/

def insertRangeFrom {α : Type} (data src : List α) (start length : Nat) :
    Except Err (List α) :=
  if (start + length) % 2 ^ 64 > src.length then
    .error .parameterOutOfBound
  else
    .ok (data ++ (src.drop start).take length)

/-- C3 counterexample: the claim fails as stated over unbounded
naturals.  With `start = 2^64 - 1` and `length = 2` (both representable
`size_t` values) and a 5-row source, `start + length` exceeds the
source length, so the claim demands the out-of-bounds error; but the
source computes `start + length` in wrapping `size_t` arithmetic,
obtaining 1, the check `1 > 5` fails, and no error is raised (the
subsequent memcpy then reads out of bounds). -/
theorem insertRangeFrom_overflow_counterexample :
    2 ^ 64 - 1 + 2 > ([1, 2, 3, 4, 5] : List Nat).length ∧
    insertRangeFrom ([] : List Nat) [1, 2, 3, 4, 5] (2 ^ 64 - 1) 2 ≠
      Except.error Err.parameterOutOfBound :=
  ⟨by decide, by decide⟩

/-- C3 (amended): `insertRangeFrom(source, start, length)` raises the
out-of-bounds error iff `(start + length) mod 2^64 > source.length`;
when the sum does not overflow (`start + length < 2^64`) this is
exactly the claim's condition `start + length > source.length`.  On
success, when `start + length ≤ source.length` genuinely holds, the
result keeps every pre-existing destination row unchanged and appends
exactly the rows `source[start] .. source[start+length-1]` in order;
when the check passes only because the sum wrapped, the C++ memcpy
reads out of bounds (undefined behavior) and nothing is asserted. -/
theorem insertRangeFrom_spec {α : Type} [Inhabited α] (data src : List α)
    (start length : Nat) :
    (insertRangeFrom data src start length = .error .parameterOutOfBound ↔
      (start + length) % 2 ^ 64 > src.length) ∧
    (start + length < 2 ^ 64 →
      (insertRangeFrom data src start length = .error .parameterOutOfBound ↔
        start + length > src.length)) ∧
    (∀ r, insertRangeFrom data src start length = .ok r →
      start + length ≤ src.length →
      r.length = data.length + length ∧
      (∀ i, i < data.length → r.getD i default = data.getD i default) ∧
      (∀ j, j < length →
        r.getD (data.length + j) default = src.getD (start + j) default)) := by
  have hiff : insertRangeFrom data src start length = .error .parameterOutOfBound ↔
      (start + length) % 2 ^ 64 > src.length := by
    unfold insertRangeFrom
    by_cases h : (start + length) % 2 ^ 64 > src.length
    · rw [if_pos h]
      exact ⟨fun _ => h, fun _ => rfl⟩
    · rw [if_neg h]
      exact ⟨fun hc => Except.noConfusion hc, fun hc => absurd hc h⟩
  refine ⟨hiff, ?_, ?_⟩
  · intro hlt
    rw [hiff, Nat.mod_eq_of_lt hlt]
  · intro r hr hb
    have hok : insertRangeFrom data src start length =
        .ok (data ++ (src.drop start).take length) := by
      unfold insertRangeFrom
      rw [if_neg (by have := Nat.mod_le (start + length) (2 ^ 64); omega)]
    rw [hok] at hr
    have hr' : r = data ++ (src.drop start).take length := by
      injection hr with h'
      exact h'.symm
    subst hr'
    refine ⟨?_, ?_, ?_⟩
    · simp only [List.length_append, List.length_take, List.length_drop]
      omega
    · intro i hi
      exact List.getD_append _ _ _ _ hi
    · intro j hj
      rw [List.getD_append_right _ _ _ _ (by omega)]
      have hidx : data.length + j - data.length = j := by omega
      rw [hidx, List.getD_eq_getElem?_getD, List.getD_eq_getElem?_getD,
        List.getElem?_take, if_pos hj, List.getElem?_drop]

/-- Witness for C3 (amended) at concrete inputs: the error side at
`start = 3, length = 3` on a 5-row source, the non-overflowing
equivalence at the same input, and the success side appending
`source[1..4)` to a 2-row destination. -/
theorem insertRangeFrom_spec_witness :
    insertRangeFrom [10, 20] [1, 2, 3, 4, 5] 3 3 = Except.error Err.parameterOutOfBound ∧
    (insertRangeFrom [10, 20] [1, 2, 3, 4, 5] 3 3 = Except.error Err.parameterOutOfBound ↔
      3 + 3 > ([1, 2, 3, 4, 5] : List Nat).length) ∧
    (([10, 20, 2, 3, 4] : List Nat).length = ([10, 20] : List Nat).length + 3 ∧
      (∀ i, i < ([10, 20] : List Nat).length →
        ([10, 20, 2, 3, 4] : List Nat).getD i default = ([10, 20] : List Nat).getD i default) ∧
      (∀ j, j < 3 →
        ([10, 20, 2, 3, 4] : List Nat).getD (([10, 20] : List Nat).length + j) default =
          ([1, 2, 3, 4, 5] : List Nat).getD (1 + j) default)) :=
  ⟨(insertRangeFrom_spec [10, 20] [1, 2, 3, 4, 5] 3 3).1.mpr (by decide),
   (insertRangeFrom_spec [10, 20] [1, 2, 3, 4, 5] 3 3).2.1 (by decide),
   (insertRangeFrom_spec [10, 20] [1, 2, 3, 4, 5] 1 3).2.2 [10, 20, 2, 3, 4]
     (by decide) (by decide)⟩

/-! ## Reordering: `permute(perm, limit)` -/

/-- The effective output length of `permute`: `limit == 0` selects the
whole column, otherwise `min(size, limit)`. -/
def effectiveLimit (size limit : Nat) : Nat :=
  if limit = 0 then size else min size limit

/-- `ColumnVector<T>::permute(perm, limit)`.  Throws
`SIZES_OF_COLUMNS_DOESNT_MATCH` when the permutation is shorter than
the effective limit; otherwise row `i` of the result is
`data[perm[i]]` (unchecked access in the C++, rendered with a default
value that is irrelevant under the claim's validity precondition). -/
def permute {α : Type} [Inhabited α] (data : List α) (perm : List Nat) (limit : Nat) :
    Except Err (List α) :=
  let lim := effectiveLimit data.length limit
  if perm.length < lim then
    .error .sizesOfColumnsDoesntMatch
  else
    .ok ((List.range lim).map (fun i => data.getD (perm.getD i 0) default))

/-- C6: for a permutation array whose entries are all valid row
indices, `permute(perm, limit)` errors (size-mismatch) iff
`perm.length < effectiveLimit`, and otherwise returns a column of
length exactly `effectiveLimit` whose row `i` is the source row
`perm[i]`. -/
theorem permute_spec {α : Type} [Inhabited α] (data : List α) (perm : List Nat)
    (limit : Nat) (_hvalid : ∀ p ∈ perm, p < data.length) :
    (permute data perm limit = .error .sizesOfColumnsDoesntMatch ↔
      perm.length < effectiveLimit data.length limit) ∧
    (∀ r, permute data perm limit = .ok r →
      r.length = effectiveLimit data.length limit ∧
      (∀ i, i < effectiveLimit data.length limit →
        r.getD i default = data.getD (perm.getD i 0) default)) := by
  unfold permute
  by_cases h : perm.length < effectiveLimit data.length limit
  · rw [if_pos h]
    exact ⟨⟨fun _ => h, fun _ => rfl⟩, fun r hr => by exact Except.noConfusion hr⟩
  · rw [if_neg h]
    refine ⟨⟨fun hc => Except.noConfusion hc, fun hc => absurd hc h⟩, ?_⟩
    intro r hr
    have hr' : r = (List.range (effectiveLimit data.length limit)).map
        (fun i => data.getD (perm.getD i 0) default) := by
      injection hr with h'
      exact h'.symm
    subst hr'
    refine ⟨by simp, ?_⟩
    intro i hi
    rw [List.getD_eq_getElem?_getD, List.getElem?_map]
    simp [List.getElem?_range hi]

/-- Witness for C6: the error case where the permutation is shorter
than the effective limit, and a 4-row column fully reversed. -/
theorem permute_spec_witness :
    permute [5, 6, 7, 8] [1, 0] 0 = Except.error Err.sizesOfColumnsDoesntMatch ∧
    (([8, 7, 6, 5] : List Nat).length = effectiveLimit 4 0 ∧
      (∀ i, i < effectiveLimit 4 0 →
        ([8, 7, 6, 5] : List Nat).getD i default =
          ([5, 6, 7, 8] : List Nat).getD (([3, 2, 1, 0] : List Nat).getD i 0) default)) :=
  ⟨(permute_spec [5, 6, 7, 8] [1, 0] 0 (by decide)).1.mpr (by decide),
   (permute_spec [5, 6, 7, 8] [3, 2, 1, 0] 0 (by decide)).2 [8, 7, 6, 5] rfl⟩

/-! ## Lifecycle: `cloneResized(size)`, at byte level

`cloneResized` is modelled at byte granularity because its
zero-filling is byte-wise: the element buffer of a column of `w`-byte
elements is a flat `List Nat` of byte values of length
`rowCount * w`.  The source does

    new_col.data.resize(size);
    size_t count = std::min(this->size(), size);
    memcpy(&new_col.data[0], &data[0], count * sizeof(data[0]));
    if (size > count)
        memset(&new_col.data[count], value_type(), size - count);

Note the `memset` byte count is `size - count` — a count of ELEMENTS,
not bytes (`* sizeof(data[0])` is missing, unlike the `memcpy` line
just above).  Modelled from the spec: the buffer (`PaddedPODArray`,
declared outside src/) is a growable POD array whose `resize` does not
initialize the new elements; the uninitialized contents are the
explicit `junk` parameter. -/

/-- `memset(buf + off, v, cnt)`: set `cnt` bytes starting at byte
offset `off`. -/
def memset (buf : List Nat) (off cnt v : Nat) : List Nat :=
  buf.take off ++ List.replicate cnt v ++ buf.drop (off + cnt)

/-- Row `i` of a flattened byte buffer of `w`-byte elements. -/
def rowBytes (w : Nat) (buf : List Nat) (i : Nat) : List Nat :=
  (buf.drop (i * w)).take w

/-- `ColumnVector<T>::cloneResized(size)` at byte level, for an element
width of `w` bytes.  `srcBytes` is the source buffer
(`oldSize * w` bytes), `junk` the uninitialized contents the resized
buffer starts from (`newSize * w` bytes). -/
def cloneResized (w : Nat) (srcBytes : List Nat) (newSize : Nat) (junk : List Nat) :
    List Nat :=
  if newSize = 0 then
    []
  else
    let oldSize := srcBytes.length / w
    let count := min oldSize newSize
    let buf := junk.take (newSize * w)
    let copied := srcBytes.take (count * w) ++ buf.drop (count * w)
    if newSize > count then memset copied (count * w) (newSize - count) 0 else copied

/-- C2 exhibit: growing a 3-row column of 2-byte elements
`[[1,1],[2,2],[3,3]]` to 5 rows, with uninitialized memory holding byte
0xAA = 170 everywhere, zero-fills only `5 - 3 = 2` BYTES (the missing
`* sizeof(T)` in the memset call), so row 3 happens to come out as
`[0,0]` but row 4 keeps the uninitialized bytes `[170,170]` instead of
the all-zero-bits representation the claim requires. -/
theorem cloneResized_memset_bug :
    cloneResized 2 [1, 1, 2, 2, 3, 3] 5 (List.replicate 10 170) =
      [1, 1, 2, 2, 3, 3, 0, 0, 170, 170] ∧
    rowBytes 2 (cloneResized 2 [1, 1, 2, 2, 3, 3] 5 (List.replicate 10 170)) 4 = [170, 170] ∧
    rowBytes 2 (cloneResized 2 [1, 1, 2, 2, 3, 3] 5 (List.replicate 10 170)) 4 ≠
      List.replicate 2 0 := ⟨by decide, by decide, by decide⟩

/-! ## Expansion: `replicate(offsets)` -/

/-- The replication loop of the source: for each row `i`, append
`offsets[i] - prev_offset` copies of `data[i]` (unsigned subtraction in
the C++, which coincides with truncated `Nat` subtraction under the
spec's precondition that `offsets` is monotonically non-decreasing). -/
def replicateLoop {α : Type} : List α → List Nat → Nat → List α
  | x :: xs, o :: os, prev => List.replicate (o - prev) x ++ replicateLoop xs os o
  | _, _, _ => []

/-- `ColumnVector<T>::replicate(offsets)`: size-mismatch error when the
offsets array's length differs from the column's, empty result for an
empty column, otherwise the replication loop starting from
`prev_offset = 0`. -/
def replicate {α : Type} (data : List α) (offsets : List Nat) : Except Err (List α) :=
  if data.length ≠ offsets.length then
    .error .sizesOfColumnsDoesntMatch
  else if data.length = 0 then
    .ok []
  else
    .ok (replicateLoop data offsets 0)

lemma chain_le_getLastD {o : Nat} :
    ∀ {os : List Nat}, List.Chain' (· ≤ ·) (o :: os) → o ≤ os.getLastD o := by
  intro os
  induction os generalizing o with
  | nil => intro _; exact le_refl o
  | cons p ps ih =>
    intro hchain
    rw [List.chain'_cons] at hchain
    rw [List.getLastD_cons]
    exact le_trans hchain.1 (ih hchain.2)

lemma chain_le_getD {o : Nat} :
    ∀ {os : List Nat}, List.Chain' (· ≤ ·) (o :: os) →
      ∀ k, k < os.length → o ≤ os.getD k 0 := by
  intro os
  induction os generalizing o with
  | nil => intro _ k hk; simp at hk
  | cons p ps ih =>
    intro hchain k hk
    rw [List.chain'_cons] at hchain
    cases k with
    | zero => exact hchain.1
    | succ k' =>
      simp only [List.getD_cons_succ]
      exact le_trans hchain.1 (ih hchain.2 k' (by simpa using hk))

lemma replicateLoop_length {α : Type} :
    ∀ (data : List α) (offsets : List Nat) (prev : Nat),
      data.length = offsets.length →
      List.Chain' (· ≤ ·) (prev :: offsets) →
      (replicateLoop data offsets prev).length = offsets.getLastD prev - prev := by
  intro data
  induction data with
  | nil =>
    intro offsets prev hlen _
    cases offsets with
    | nil => simp [replicateLoop]
    | cons o os => simp at hlen
  | cons x xs ih =>
    intro offsets prev hlen hchain
    cases offsets with
    | nil => simp at hlen
    | cons o os =>
      rw [List.chain'_cons] at hchain
      have h1 : prev ≤ o := hchain.1
      have h2 : o ≤ os.getLastD o := chain_le_getLastD hchain.2
      simp only [replicateLoop, List.length_append, List.length_replicate,
        List.getLastD_cons]
      rw [ih os o (by simpa using hlen) hchain.2]
      omega

lemma replicateLoop_getD {α : Type} [Inhabited α] :
    ∀ (data : List α) (offsets : List Nat) (prev : Nat),
      data.length = offsets.length →
      List.Chain' (· ≤ ·) (prev :: offsets) →
      ∀ i, i < data.length → ∀ j,
        (if i = 0 then prev else offsets.getD (i - 1) 0) ≤ j →
        j < offsets.getD i 0 →
        (replicateLoop data offsets prev).getD (j - prev) default = data.getD i default := by
  intro data
  induction data with
  | nil =>
    intro offsets prev _ _ i hi
    simp at hi
  | cons x xs ih =>
    intro offsets prev hlen hchain i hi j hlo hhi
    cases offsets with
    | nil => simp at hlen
    | cons o os =>
      rw [List.chain'_cons] at hchain
      have hprev_o : prev ≤ o := hchain.1
      cases i with
      | zero =>
        simp only [reduceIte] at hlo
        simp only [List.getD_cons_zero] at hhi ⊢
        simp only [replicateLoop]
        rw [List.getD_eq_getElem?_getD, List.getElem?_append,
          if_pos (by simp only [List.length_replicate]; omega)]
        rw [List.getElem?_replicate, if_pos (show j - prev < o - prev by omega)]
        rfl
      | succ i' =>
        simp only [Nat.succ_sub_one, if_neg (Nat.succ_ne_zero i')] at hlo
        simp only [List.getD_cons_succ] at hhi
        have hjo : o ≤ j := by
          cases i' with
          | zero =>
            simp only [List.getD_cons_zero] at hlo
            exact hlo
          | succ i'' =>
            simp only [List.getD_cons_succ] at hlo
            have hi''len : i'' < os.length := by
              simp only [List.length_cons] at hlen hi
              omega
            exact le_trans (chain_le_getD hchain.2 i'' hi''len) hlo
        simp only [replicateLoop, List.getD_cons_succ]
        rw [List.getD_append_right _ _ _ _
          (by simp only [List.length_replicate]; omega)]
        simp only [List.length_replicate]
        have harith : j - prev - (o - prev) = j - o := by omega
        rw [harith]
        refine ih os o (by simpa using hlen) hchain.2 i'
          (by simp only [List.length_cons] at hi; omega) j ?_ hhi
        cases i' with
        | zero => simp only [if_pos rfl]; exact hjo
        | succ i'' =>
          simp only [if_neg (Nat.succ_ne_zero i''), Nat.succ_sub_one]
          simp only [Nat.succ_sub_one, List.getD_cons_succ] at hlo
          exact hlo

/-- C5: under the spec's precondition that `offsets` is monotonically
non-decreasing, `replicate(offsets)` errors (size-mismatch) iff
`offsets.length != columnLength`; an empty column yields an empty
result; otherwise the result has total length `offsets.last()` and its
rows from position `offsets[i-1]` (0 for `i = 0`) up to `offsets[i]`
all hold source row `i` — i.e. row `i` appears exactly
`offsets[i] - offsets[i-1]` times consecutively, in original order. -/
theorem replicate_spec {α : Type} [Inhabited α] (data : List α) (offsets : List Nat)
    (hmono : List.Chain' (· ≤ ·) offsets) :
    (replicate data offsets = .error .sizesOfColumnsDoesntMatch ↔
      data.length ≠ offsets.length) ∧
    (data = [] → data.length = offsets.length → replicate data offsets = .ok []) ∧
    (∀ r, replicate data offsets = .ok r → data ≠ [] →
      r.length = offsets.getLastD 0 ∧
      (∀ i, i < data.length → ∀ j,
        (if i = 0 then 0 else offsets.getD (i - 1) 0) ≤ j →
        j < offsets.getD i 0 →
        r.getD j default = data.getD i default)) := by
  have hchain0 : List.Chain' (· ≤ ·) (0 :: offsets) := by
    rw [List.chain'_cons']
    exact ⟨fun y _ => Nat.zero_le y, hmono⟩
  unfold replicate
  by_cases hlen : data.length ≠ offsets.length
  · rw [if_pos hlen]
    refine ⟨⟨fun _ => hlen, fun _ => rfl⟩, ?_, ?_⟩
    · intro hnil hlen'
      exact absurd hlen' hlen
    · intro r hr
      exact Except.noConfusion hr
  · rw [if_neg hlen]
    push_neg at hlen
    by_cases hz : data.length = 0
    · rw [if_pos hz]
      refine ⟨⟨fun hc => Except.noConfusion hc, fun hc => absurd hlen hc⟩,
        fun _ _ => rfl, ?_⟩
      intro r hr hne
      exact absurd (List.length_eq_zero.mp hz) hne
    · rw [if_neg hz]
      refine ⟨⟨fun hc => Except.noConfusion hc, fun hc => absurd hlen hc⟩,
        fun hnil _ => absurd (by rw [hnil]; rfl) hz, ?_⟩
      intro r hr _
      have hr' : r = replicateLoop data offsets 0 := by
        injection hr with h'
        exact h'.symm
      subst hr'
      constructor
      · rw [replicateLoop_length data offsets 0 hlen hchain0]
        omega
      · intro i hi j hlo hhi
        have := replicateLoop_getD data offsets 0 hlen hchain0 i hi j hlo hhi
        simpa using this

/-- Witness for C5: the size-mismatch side at `([5,6], [1])` and the
success side at `replicate [5,6] [2,5] = [5,5,6,6,6]`. -/
theorem replicate_spec_witness :
    (replicate ([5, 6] : List Nat) [1] = Except.error Err.sizesOfColumnsDoesntMatch) ∧
    (([5, 5, 6, 6, 6] : List Nat).length = ([2, 5] : List Nat).getLastD 0 ∧
      (∀ i, i < ([5, 6] : List Nat).length → ∀ j,
        (if i = 0 then 0 else ([2, 5] : List Nat).getD (i - 1) 0) ≤ j →
        j < ([2, 5] : List Nat).getD i 0 →
        ([5, 5, 6, 6, 6] : List Nat).getD j default = ([5, 6] : List Nat).getD i default)) :=
  ⟨(replicate_spec [5, 6] [1] (List.chain'_singleton 1)).1.mpr (by decide),
   (replicate_spec [5, 6] [2, 5]
      (List.chain'_cons.mpr ⟨by omega, List.chain'_singleton 5⟩)).2.2
      [5, 5, 6, 6, 6] rfl (by decide)⟩

/-! ## Sort-order derivation: `getPermutation(reverse, limit, res)`

The source fills `res` with `0 .. s-1`, maps `limit >= s` to
`limit = 0`, and then runs `std::partial_sort` (when `0 < limit < s`)
or `std::sort` (otherwise) with the comparators
`less`/`greater`, which compare `data[lhs]` and `data[rhs]` with
`CompareHelper<T>::less` / `::greater`.

Modelled from the spec where the collaborators are outside src/:
`CompareHelper<T>` (declared in ColumnVector.h) is "a total order over
T consistent with numeric comparison", rendered as `≤`/`<` of a linear
order; `std::sort` and `std::partial_sort` promise only *some*
rearrangement that is (partially) sorted by the comparator and leave
the order of equal keys (and, for `partial_sort`, the tail) otherwise
unspecified, so they are modelled by a merge sort of the index list —
one concrete, deterministic instance of both contracts (a fully sorted
rearrangement in particular has its first `limit` positions equal to
the sorted smallest `limit` elements). -/

/-- The row-value order the permutation must realize: ascending when
`reverse` is false, descending when `reverse` is true. -/
def sortRel {α : Type} [LinearOrder α] (reverse : Bool) (a b : α) : Prop :=
  if reverse then b ≤ a else a ≤ b

/-- `ColumnVector<T>::getPermutation(reverse, limit, res)`.  Returns
the filled permutation `res` (an index list of length `s`); the
`limit >= s → limit = 0` normalization selects `std::sort` vs
`std::partial_sort` in the source, both modelled by the same full
merge sort of the indices. -/
def getPermutation {α : Type} [LinearOrder α] [Inhabited α]
    (reverse : Bool) (limit : Nat) (data : List α) : List Nat :=
  let s := data.length
  let res := List.range s
  let _limit' := if s ≤ limit then 0 else limit
  if reverse then
    res.mergeSort (fun i j => decide (data.getD j default ≤ data.getD i default))
  else
    res.mergeSort (fun i j => decide (data.getD i default ≤ data.getD j default))

/-- Reading the column through a permutation: row sequence
`data[res[0]], data[res[1]], ...`. -/
def readPerm {α : Type} [Inhabited α] (data : List α) (res : List Nat) : List α :=
  res.map (fun i => data.getD i default)

lemma getPermutation_perm_range {α : Type} [LinearOrder α] [Inhabited α]
    (reverse : Bool) (limit : Nat) (data : List α) :
    (getPermutation reverse limit data).Perm (List.range data.length) := by
  unfold getPermutation
  by_cases hrev : reverse
  · rw [if_pos hrev]
    exact List.mergeSort_perm _ _
  · rw [if_neg hrev]
    exact List.mergeSort_perm _ _

lemma getPermutation_pairwise {α : Type} [LinearOrder α] [Inhabited α]
    (reverse : Bool) (limit : Nat) (data : List α) :
    List.Pairwise (fun i j => sortRel reverse (data.getD i default) (data.getD j default))
      (getPermutation reverse limit data) := by
  unfold getPermutation sortRel
  by_cases hrev : reverse
  · rw [if_pos hrev]
    simp only [if_pos hrev]
    have h := @List.sorted_mergeSort Nat
      (fun i j => decide (data.getD j default ≤ data.getD i default))
      (fun a b c hab hbc => by
        simp only [decide_eq_true_eq] at hab hbc ⊢
        exact le_trans hbc hab)
      (fun a b => by
        simp only [decide_eq_true_eq, Bool.or_eq_true]
        exact le_total (data.getD b default) (data.getD a default))
      (List.range data.length)
    exact h.imp (fun hab => by simpa using hab)
  · rw [if_neg hrev]
    simp only [if_neg hrev]
    have h := @List.sorted_mergeSort Nat
      (fun i j => decide (data.getD i default ≤ data.getD j default))
      (fun a b c hab hbc => by
        simp only [decide_eq_true_eq] at hab hbc ⊢
        exact le_trans hab hbc)
      (fun a b => by
        simp only [decide_eq_true_eq, Bool.or_eq_true]
        exact le_total (data.getD a default) (data.getD b default))
      (List.range data.length)
    exact h.imp (fun hab => by simpa using hab)

lemma readPerm_sorted {α : Type} [LinearOrder α] [Inhabited α]
    (reverse : Bool) (limit : Nat) (data : List α) :
    List.Sorted (sortRel reverse) (readPerm data (getPermutation reverse limit data)) := by
  unfold readPerm List.Sorted
  rw [List.pairwise_map]
  exact getPermutation_pairwise reverse limit data

/-- C4: with `limit = 0` or `limit ≥ rowCount`, reading the column
through the permutation yields all rows fully sorted (ascending for
`reverse = false`, descending for `reverse = true`); with
`0 < limit < rowCount`, the first `limit` positions index the
smallest (largest, if reverse) `limit` elements in sorted order —
every value they select precedes, in the sort order, every value
selected by the remaining positions, which hold the rest of the
indices. -/
theorem getPermutation_spec {α : Type} [LinearOrder α] [Inhabited α]
    (data : List α) (reverse : Bool) (limit : Nat) :
    ((limit = 0 ∨ data.length ≤ limit) →
      List.Sorted (sortRel reverse) (readPerm data (getPermutation reverse limit data)) ∧
      (getPermutation reverse limit data).Perm (List.range data.length)) ∧
    (0 < limit → limit < data.length →
      List.Sorted (sortRel reverse)
        ((readPerm data (getPermutation reverse limit data)).take limit) ∧
      (∀ x ∈ (readPerm data (getPermutation reverse limit data)).take limit,
        ∀ y ∈ (readPerm data (getPermutation reverse limit data)).drop limit,
          sortRel reverse x y) ∧
      (getPermutation reverse limit data).Perm (List.range data.length)) := by
  have hsorted := readPerm_sorted reverse limit data
  constructor
  · intro _
    exact ⟨hsorted, getPermutation_perm_range reverse limit data⟩
  · intro _ _
    refine ⟨?_, ?_, getPermutation_perm_range reverse limit data⟩
    · exact hsorted.sublist (List.take_sublist _ _)
    · have hsplit := List.take_append_drop limit
        (readPerm data (getPermutation reverse limit data))
      have hp : List.Pairwise (sortRel reverse)
          ((readPerm data (getPermutation reverse limit data)).take limit ++
           (readPerm data (getPermutation reverse limit data)).drop limit) := by
        rw [hsplit]
        exact hsorted
      exact (List.pairwise_append.mp hp).2.2

/-- Witness for C4 on the column `[3, 1, 2]`: a full ascending sort at
`limit = 0` and a partial sort at `limit = 2`. -/
theorem getPermutation_spec_witness :
    (List.Sorted (sortRel false)
        (readPerm ([3, 1, 2] : List Nat) (getPermutation false 0 [3, 1, 2])) ∧
      (getPermutation false 0 ([3, 1, 2] : List Nat)).Perm (List.range 3)) ∧
    (List.Sorted (sortRel false)
        ((readPerm ([3, 1, 2] : List Nat) (getPermutation false 2 [3, 1, 2])).take 2) ∧
      (∀ x ∈ (readPerm ([3, 1, 2] : List Nat) (getPermutation false 2 [3, 1, 2])).take 2,
        ∀ y ∈ (readPerm ([3, 1, 2] : List Nat) (getPermutation false 2 [3, 1, 2])).drop 2,
          sortRel false x y) ∧
      (getPermutation false 2 ([3, 1, 2] : List Nat)).Perm (List.range 3)) :=
  ⟨(getPermutation_spec [3, 1, 2] false 0).1 (Or.inl rfl),
   (getPermutation_spec [3, 1, 2] false 2).2 (by omega) (by decide)⟩

/-- C10: for every column, every `reverse` flag, and every `limit`
(zero, positive below the row count, or at least the row count),
`getPermutation` resizes its result to length exactly `rowCount` and
that result is a rearrangement of `{0, ..., rowCount-1}` in which each
index appears exactly once. -/
theorem getPermutation_is_permutation {α : Type} [LinearOrder α] [Inhabited α]
    (data : List α) (reverse : Bool) (limit : Nat) :
    (getPermutation reverse limit data).length = data.length ∧
    (getPermutation reverse limit data).Perm (List.range data.length) := by
  have hperm := getPermutation_perm_range reverse limit data
  exact ⟨by rw [hperm.length_eq, List.length_range], hperm⟩

/-! ## Extremes: `getExtremes(min, max)`

The element type is modelled as either a NaN or an ordinary numeric
value.  Integer element types are exactly the columns containing no
`nan` (their `isNaN` is constantly false); floating-point columns may
contain `nan`.  The C++ comparisons `x < cur_min` / `x > cur_max` are
IEEE comparisons: false whenever either side is NaN, the numeric order
on non-NaN values (`>` is the converse of `<`).  `NaNOrZero<T>()` is
NaN for floating-point T and zero for integer T; the initial
accumulator is observable only in the all-NaN case, which only a
floating-point column can produce, so the model uses the
floating-point initial value.  Modelled from the spec:
`NearestFieldType<T>` boxing (declared outside src/) "boxes into the
engine's generic scalar value type" without changing the numeric
value, so it is the identity here. -/

/-- A fixed-width element value: a NaN or a numeric value. -/
inductive FV where
  | nan
  | val (x : Int)
deriving DecidableEq, Repr

/-- `isNaN(x)`. -/
def FV.isNaN : FV → Bool
  | .nan => true
  | .val _ => false

/-- IEEE `<`: false when either operand is NaN. -/
def FV.lt : FV → FV → Bool
  | .val a, .val b => decide (a < b)
  | _, _ => false

/-- `NaNOrZero<T>()` for floating-point T. -/
def NaNOrZero : FV := .nan

/-- One iteration of the getExtremes scan: skip NaN, adopt the first
non-NaN value, then `if (x < cur_min) cur_min = x; if (x > cur_max)
cur_max = x;`. -/
def extremesStep (st : Bool × FV × FV) (x : FV) : Bool × FV × FV :=
  if x.isNaN then
    st
  else if !st.1 then
    (true, x, x)
  else
    (true,
     if FV.lt x st.2.1 then x else st.2.1,
     if FV.lt st.2.2 x then x else st.2.2)

/-- `ColumnVector<T>::getExtremes(min, max)`: `(0, 0)` for an empty
column, otherwise a linear scan from
`(has_value = false, NaNOrZero, NaNOrZero)`. -/
def getExtremes (data : List FV) : FV × FV :=
  if data.length = 0 then
    (.val 0, .val 0)
  else
    let st := data.foldl extremesStep (false, NaNOrZero, NaNOrZero)
    (st.2.1, st.2.2)

/-- The non-NaN values of a column, in order. -/
def numericValues (data : List FV) : List Int :=
  data.filterMap (fun x => match x with | .nan => none | .val a => some a)

lemma extremesStep_nan (st : Bool × FV × FV) : extremesStep st FV.nan = st := rfl

lemma extremes_foldl_true :
    ∀ (l : List FV) (m M : Int),
      ∃ m' M', l.foldl extremesStep (true, .val m, .val M) = (true, .val m', .val M') ∧
        (m' = m ∨ m' ∈ numericValues l) ∧ (M' = M ∨ M' ∈ numericValues l) ∧
        m' ≤ m ∧ M ≤ M' ∧ (∀ a ∈ numericValues l, m' ≤ a ∧ a ≤ M') := by
  intro l
  induction l with
  | nil =>
    intro m M
    exact ⟨m, M, rfl, Or.inl rfl, Or.inl rfl, le_refl m, le_refl M, by simp [numericValues]⟩
  | cons x xs ih =>
    intro m M
    cases x with
    | nan =>
      obtain ⟨m', M', heq, hm, hM, hmle, hMle, hall⟩ := ih m M
      refine ⟨m', M', ?_, ?_, ?_, hmle, hMle, ?_⟩
      · rw [List.foldl_cons, extremesStep_nan _]
        exact heq
      · simpa [numericValues] using hm
      · simpa [numericValues] using hM
      · intro a ha
        exact hall a (by simpa [numericValues] using ha)
    | val v =>
      have hstep : extremesStep (true, FV.val m, FV.val M) (FV.val v) =
          (true, FV.val (if v < m then v else m), FV.val (if M < v then v else M)) := by
        by_cases h1 : v < m <;> by_cases h2 : M < v <;>
          simp [extremesStep, FV.isNaN, FV.lt, h1, h2]
      obtain ⟨m', M', heq, hm, hM, hmle, hMle, hall⟩ :=
        ih (if v < m then v else m) (if M < v then v else M)
      have hvals : numericValues (FV.val v :: xs) = v :: numericValues xs := by
        simp [numericValues]
      refine ⟨m', M', ?_, ?_, ?_, ?_, ?_, ?_⟩
      · rw [List.foldl_cons, hstep]
        exact heq
      · rw [hvals]
        rcases hm with hm | hm
        · by_cases hvm : v < m
          · rw [if_pos hvm] at hm
            exact Or.inr (by rw [hm]; exact List.mem_cons_self v _)
          · rw [if_neg hvm] at hm
            exact Or.inl hm
        · exact Or.inr (List.mem_cons_of_mem v hm)
      · rw [hvals]
        rcases hM with hM | hM
        · by_cases hMv : M < v
          · rw [if_pos hMv] at hM
            exact Or.inr (by rw [hM]; exact List.mem_cons_self v _)
          · rw [if_neg hMv] at hM
            exact Or.inl hM
        · exact Or.inr (List.mem_cons_of_mem v hM)
      · have : (if v < m then v else m) ≤ m := by
          by_cases hvm : v < m
          · rw [if_pos hvm]; omega
          · rw [if_neg hvm]
        omega
      · have : M ≤ (if M < v then v else M) := by
          by_cases hMv : M < v
          · rw [if_pos hMv]; omega
          · rw [if_neg hMv]
        omega
      · intro a ha
        rw [hvals] at ha
        rcases List.mem_cons.mp ha with rfl | ha'
        · constructor
          · have : (if a < m then a else m) ≤ a := by
              by_cases hvm : a < m
              · rw [if_pos hvm]
              · rw [if_neg hvm]; omega
            omega
          · have : a ≤ (if M < a then a else M) := by
              by_cases hMv : M < a
              · rw [if_pos hMv]
              · rw [if_neg hMv]; omega
            omega
        · exact hall a ha'

lemma extremes_foldl_start (l : List FV) :
    (numericValues l = [] →
      l.foldl extremesStep (false, NaNOrZero, NaNOrZero) = (false, FV.nan, FV.nan)) ∧
    (numericValues l ≠ [] →
      ∃ m M, l.foldl extremesStep (false, NaNOrZero, NaNOrZero) = (true, .val m, .val M) ∧
        m ∈ numericValues l ∧ M ∈ numericValues l ∧
        (∀ a ∈ numericValues l, m ≤ a ∧ a ≤ M)) := by
  induction l with
  | nil =>
    exact ⟨fun _ => rfl, fun hc => absurd rfl hc⟩
  | cons x xs ih =>
    cases x with
    | nan =>
      have hvals : numericValues (FV.nan :: xs) = numericValues xs := by
        simp [numericValues]
      constructor
      · intro hz
        rw [List.foldl_cons, extremesStep_nan _]
        exact ih.1 (by rwa [hvals] at hz)
      · intro hnz
        rw [List.foldl_cons, extremesStep_nan _]
        obtain ⟨m, M, heq, hm, hM, hall⟩ := ih.2 (by rwa [hvals] at hnz)
        exact ⟨m, M, heq, by rwa [hvals], by rwa [hvals],
          fun a ha => hall a (by rwa [hvals] at ha)⟩
    | val v =>
      have hvals : numericValues (FV.val v :: xs) = v :: numericValues xs := by
        simp [numericValues]
      have hstep : extremesStep (false, NaNOrZero, NaNOrZero) (FV.val v) =
          (true, FV.val v, FV.val v) := rfl
      constructor
      · intro hz
        rw [hvals] at hz
        exact absurd hz (List.cons_ne_nil v _)
      · intro _
        rw [List.foldl_cons, hstep]
        obtain ⟨m', M', heq, hm, hM, hmle, hMle, hall⟩ := extremes_foldl_true xs v v
        refine ⟨m', M', heq, ?_, ?_, ?_⟩
        · rw [hvals]
          rcases hm with rfl | hm
          · exact List.mem_cons_self m' _
          · exact List.mem_cons_of_mem v hm
        · rw [hvals]
          rcases hM with rfl | hM
          · exact List.mem_cons_self M' _
          · exact List.mem_cons_of_mem v hM
        · intro a ha
          rw [hvals] at ha
          rcases List.mem_cons.mp ha with rfl | ha'
          · exact ⟨hmle, hMle⟩
          · exact hall a ha'

lemma numericValues_eq_nil {data : List FV} (h : ∀ x ∈ data, x.isNaN) :
    numericValues data = [] := by
  induction data with
  | nil => rfl
  | cons x xs ih =>
    cases x with
    | nan =>
      simp only [numericValues, List.filterMap_cons]
      exact ih (fun y hy => h y (List.mem_cons_of_mem _ hy))
    | val v =>
      exact absurd (h (FV.val v) (List.mem_cons_self _ _)) (by simp [FV.isNaN])

/-- C7: `getExtremes` returns `(0, 0)` on the empty column; a NaN pair
(checked by is-NaN only, not bit pattern) on a non-empty column whose
values are all NaN; and otherwise exactly the numeric minimum and
maximum over the column's non-NaN values.  A column with no NaN entry
(every integer column: its `isNaN` is constantly false) never takes the
NaN-skip branch, so its min/max range over all rows. -/
theorem getExtremes_spec (data : List FV) :
    (data = [] → getExtremes data = (FV.val 0, FV.val 0)) ∧
    (data ≠ [] → (∀ x ∈ data, x.isNaN) →
      (getExtremes data).1.isNaN ∧ (getExtremes data).2.isNaN) ∧
    (numericValues data ≠ [] →
      ∃ m M, getExtremes data = (FV.val m, FV.val M) ∧
        m ∈ numericValues data ∧ M ∈ numericValues data ∧
        (∀ a ∈ numericValues data, m ≤ a ∧ a ≤ M)) := by
  refine ⟨?_, ?_, ?_⟩
  · intro hnil
    subst hnil
    rfl
  · intro hne hall
    have hlen : data.length ≠ 0 := fun h => hne (List.length_eq_zero.mp h)
    have hz := (extremes_foldl_start data).1 (numericValues_eq_nil hall)
    unfold getExtremes
    rw [if_neg hlen, hz]
    exact ⟨rfl, rfl⟩
  · intro hvals
    have hne : data ≠ [] := by
      intro hnil
      subst hnil
      exact hvals rfl
    have hlen : data.length ≠ 0 := fun h => hne (List.length_eq_zero.mp h)
    obtain ⟨m, M, heq, hm, hM, hall⟩ := (extremes_foldl_start data).2 hvals
    refine ⟨m, M, ?_, hm, hM, hall⟩
    unfold getExtremes
    rw [if_neg hlen, heq]

/-- Witness for C7 at the spec's three examples: `[]` gives `(0,0)`,
`[NaN, NaN]` gives a NaN pair, `[1, 5, NaN, 3]` gives min 1 and max 5
(as membership plus bounds over the non-NaN values). -/
theorem getExtremes_spec_witness :
    getExtremes [] = (FV.val 0, FV.val 0) ∧
    ((getExtremes [FV.nan, FV.nan]).1.isNaN ∧ (getExtremes [FV.nan, FV.nan]).2.isNaN) ∧
    (∃ m M, getExtremes [FV.val 1, FV.val 5, FV.nan, FV.val 3] = (FV.val m, FV.val M) ∧
      m ∈ numericValues [FV.val 1, FV.val 5, FV.nan, FV.val 3] ∧
      M ∈ numericValues [FV.val 1, FV.val 5, FV.nan, FV.val 3] ∧
      (∀ a ∈ numericValues [FV.val 1, FV.val 5, FV.nan, FV.val 3], m ≤ a ∧ a ≤ M)) :=
  ⟨(getExtremes_spec []).1 rfl,
   (getExtremes_spec [FV.nan, FV.nan]).2.1 (by decide) (by decide),
   (getExtremes_spec [FV.val 1, FV.val 5, FV.nan, FV.val 3]).2.2 (by decide)⟩

/-! ## Serialization: `serializeValueIntoArena` / `deserializeAndInsertFromArena`

Elements are their native `sizeof(T)`-byte representations, so an
element of a `w`-byte type is a `List Nat` of `w` byte values (this
makes "bit-for-bit", NaN and negative-zero payloads included, literal:
equality of byte lists).  The arena is a flat byte buffer;
`arena.allocContinue(sizeof(T), begin)` hands out the current end of
the buffer as a stable position (Modelled from the spec: the arena,
outside src/, is "an opaque bump allocator returning a stable pointer"),
`memcpy` appends the element's bytes there, and the returned
`StringRef(pos, sizeof(T))` is the pair (byte offset, length). -/

/-- `ColumnVector<T>::serializeValueIntoArena(n, arena, begin)`:
allocates `sizeof(T) = w` bytes at the end of the arena, copies the
bytes of `data[n]` there, and returns (new arena, position of the
write, length of the view). -/
def serializeValueIntoArena (w : Nat) (data : List (List Nat)) (n : Nat)
    (arena : List Nat) : List Nat × Nat × Nat :=
  (arena ++ (data.getD n []).take w, arena.length, w)

/-- `ColumnVector<T>::deserializeAndInsertFromArena(pos)`: reads
exactly `sizeof(T) = w` bytes at byte offset `pos` of the buffer,
appends them as a new row, and returns (new column, advanced
position). -/
def deserializeAndInsertFromArena (w : Nat) (col : List (List Nat))
    (buf : List Nat) (pos : Nat) : List (List Nat) × Nat :=
  (col ++ [(buf.drop pos).take w], pos + w)

/-- C8: serializing row `n` writes exactly `sizeof(T)` bytes to the
arena and returns a view of length `sizeof(T)`; deserializing from the
written position appends to any destination column a row bit-for-bit
equal to row `n` of the source and returns the position advanced by
exactly `sizeof(T)` bytes. -/
theorem serialize_deserialize_roundtrip (w : Nat) (data col : List (List Nat))
    (n : Nat) (arena : List Nat) (_hn : n < data.length)
    (hw : (data.getD n []).length = w) :
    (serializeValueIntoArena w data n arena).1.length = arena.length + w ∧
    (serializeValueIntoArena w data n arena).2.2 = w ∧
    (deserializeAndInsertFromArena w col (serializeValueIntoArena w data n arena).1
        (serializeValueIntoArena w data n arena).2.1).1 = col ++ [data.getD n []] ∧
    (deserializeAndInsertFromArena w col (serializeValueIntoArena w data n arena).1
        (serializeValueIntoArena w data n arena).2.1).2 =
      (serializeValueIntoArena w data n arena).2.1 + w := by
  have htake : (data.getD n []).take w = data.getD n [] :=
    List.take_of_length_le (le_of_eq hw)
  unfold serializeValueIntoArena deserializeAndInsertFromArena
  refine ⟨?_, rfl, ?_, rfl⟩
  · simp only [List.length_append, List.length_take]
    omega
  · simp only [List.drop_left, htake]

/-- Witness for C8: a 4-byte element type (`sizeof(T) = 4`), a source
column holding one row with bytes `[7, 8, 9, 10]`, an arena already
holding two bytes, and a destination column with one existing row. -/
theorem serialize_deserialize_roundtrip_witness :
    (serializeValueIntoArena 4 [[7, 8, 9, 10]] 0 [5, 5]).1.length = ([5, 5] : List Nat).length + 4 ∧
    (serializeValueIntoArena 4 [[7, 8, 9, 10]] 0 [5, 5]).2.2 = 4 ∧
    (deserializeAndInsertFromArena 4 [[1, 1, 1, 1]]
        (serializeValueIntoArena 4 [[7, 8, 9, 10]] 0 [5, 5]).1
        (serializeValueIntoArena 4 [[7, 8, 9, 10]] 0 [5, 5]).2.1).1 =
      [[1, 1, 1, 1]] ++ [([[7, 8, 9, 10]] : List (List Nat)).getD 0 []] ∧
    (deserializeAndInsertFromArena 4 [[1, 1, 1, 1]]
        (serializeValueIntoArena 4 [[7, 8, 9, 10]] 0 [5, 5]).1
        (serializeValueIntoArena 4 [[7, 8, 9, 10]] 0 [5, 5]).2.1).2 =
      (serializeValueIntoArena 4 [[7, 8, 9, 10]] 0 [5, 5]).2.1 + 4 :=
  serialize_deserialize_roundtrip 4 [[7, 8, 9, 10]] [[1, 1, 1, 1]] 0 [5, 5]
    (by decide) (by decide)

/-! ## Frame property: operations return a fresh column

`ColumnPtr` ownership is rendered as a heap of allocated column
buffers: a heap is the list of buffers allocated so far, a column
pointer is an index into it, and `std::make_shared<Self>(...)`
allocates at a fresh index (the end of the heap).  Each returning
operation reads the source buffer, computes the pure result defined
above, and allocates it; the theorem shows every pre-existing buffer —
the source in particular — is unchanged and the result index is fresh,
so the result buffer does not alias the source buffer. -/

/-- The allocation heap: all column buffers allocated so far (buffers
of `Nat` cells: element values, or bytes for `cloneResized`). -/
abbrev Heap : Type := List (List Nat)

/-- `std::make_shared<Self>(...)`: allocate a buffer at a fresh index. -/
def allocColumn (h : Heap) (buf : List Nat) : Heap × Nat :=
  (h ++ [buf], List.length h)

/-- `filter` as a heap operation on a column pointer. -/
def filterOp (h : Heap) (src : Nat) (filt : List Nat) (hint : Int) :
    Except Err (Heap × Nat) :=
  match filter (List.getD h src []) filt hint with
  | .ok buf => .ok (allocColumn h buf)
  | .error e => .error e

/-- `permute` as a heap operation on a column pointer. -/
def permuteOp (h : Heap) (src : Nat) (perm : List Nat) (limit : Nat) :
    Except Err (Heap × Nat) :=
  match permute (List.getD h src []) perm limit with
  | .ok buf => .ok (allocColumn h buf)
  | .error e => .error e

/-- `replicate` as a heap operation on a column pointer. -/
def replicateOp (h : Heap) (src : Nat) (offsets : List Nat) :
    Except Err (Heap × Nat) :=
  match replicate (List.getD h src []) offsets with
  | .ok buf => .ok (allocColumn h buf)
  | .error e => .error e

/-- `cloneResized` (total) as a heap operation on a column pointer,
with the source buffer read at byte level. -/
def cloneResizedOp (h : Heap) (src : Nat) (w newSize : Nat) (junk : List Nat) :
    Heap × Nat :=
  allocColumn h (cloneResized w (List.getD h src []) newSize junk)

/-- The frame/freshness contract of a returning operation: every
buffer already allocated (the source in particular) is unchanged, and
the result lives at a fresh index distinct from the source, so the two
buffers do not alias. -/
def freshFrame (h h' : Heap) (idx src : Nat) : Prop :=
  (∀ j, j < List.length h → List.getD h' j [] = List.getD h j []) ∧
  idx = List.length h ∧
  (src < List.length h → idx ≠ src)

lemma allocColumn_freshFrame (h : Heap) (buf : List Nat) (src : Nat) :
    freshFrame h (allocColumn h buf).1 (allocColumn h buf).2 src := by
  refine ⟨?_, rfl, ?_⟩
  · intro j hj
    exact List.getD_append _ _ _ _ hj
  · intro hsrc
    simp only [allocColumn]
    omega

/-- C9: `filter`, `permute`, `replicate`, and `cloneResized` each
leave every previously allocated column buffer — the source column's
data sequence in particular — completely unchanged, and return a
freshly allocated column at a new index, which therefore does not
alias the source buffer. -/
theorem newColumn_ops_frame (h : Heap) (src : Nat)
    (filt : List Nat) (hint : Int) (perm : List Nat) (limit : Nat)
    (offsets : List Nat) (w newSize : Nat) (junk : List Nat)
    (h₁ : Heap) (i₁ : Nat) (hf : filterOp h src filt hint = .ok (h₁, i₁))
    (h₂ : Heap) (i₂ : Nat) (hp : permuteOp h src perm limit = .ok (h₂, i₂))
    (h₃ : Heap) (i₃ : Nat) (hr : replicateOp h src offsets = .ok (h₃, i₃)) :
    freshFrame h h₁ i₁ src ∧ freshFrame h h₂ i₂ src ∧ freshFrame h h₃ i₃ src ∧
    freshFrame h (cloneResizedOp h src w newSize junk).1
      (cloneResizedOp h src w newSize junk).2 src := by
  refine ⟨?_, ?_, ?_, allocColumn_freshFrame h _ src⟩
  · unfold filterOp at hf
    cases hfe : filter (List.getD h src []) filt hint with
    | ok buf =>
      rw [hfe] at hf
      injection hf with hf'
      have h1 : h₁ = (allocColumn h buf).1 := by rw [hf']
      have h2 : i₁ = (allocColumn h buf).2 := by rw [hf']
      rw [h1, h2]
      exact allocColumn_freshFrame h buf src
    | error e =>
      rw [hfe] at hf
      exact Except.noConfusion hf
  · unfold permuteOp at hp
    cases hpe : permute (List.getD h src []) perm limit with
    | ok buf =>
      rw [hpe] at hp
      injection hp with hp'
      have h1 : h₂ = (allocColumn h buf).1 := by rw [hp']
      have h2 : i₂ = (allocColumn h buf).2 := by rw [hp']
      rw [h1, h2]
      exact allocColumn_freshFrame h buf src
    | error e =>
      rw [hpe] at hp
      exact Except.noConfusion hp
  · unfold replicateOp at hr
    cases hre : replicate (List.getD h src []) offsets with
    | ok buf =>
      rw [hre] at hr
      injection hr with hr'
      have h1 : h₃ = (allocColumn h buf).1 := by rw [hr']
      have h2 : i₃ = (allocColumn h buf).2 := by rw [hr']
      rw [h1, h2]
      exact allocColumn_freshFrame h buf src
    | error e =>
      rw [hre] at hr
      exact Except.noConfusion hr

/-- Witness for C9 on a one-column heap `[[3, 1, 2]]`: filtering with
mask `[1, 0, 1]`, permuting with `[2, 1, 0]`, replicating with offsets
`[1, 2, 3]`, and clone-resizing to 2 one-byte rows all succeed and
satisfy the frame/freshness contract. -/
theorem newColumn_ops_frame_witness :
    freshFrame [[3, 1, 2]] [[3, 1, 2], [3, 2]] 1 0 ∧
    freshFrame [[3, 1, 2]] [[3, 1, 2], [2, 1, 3]] 1 0 ∧
    freshFrame [[3, 1, 2]] [[3, 1, 2], [3, 1, 2]] 1 0 ∧
    freshFrame [[3, 1, 2]]
      (cloneResizedOp [[3, 1, 2]] 0 1 2 [9, 9]).1
      (cloneResizedOp [[3, 1, 2]] 0 1 2 [9, 9]).2 0 :=
  newColumn_ops_frame [[3, 1, 2]] 0 [1, 0, 1] 0 [2, 1, 0] 0 [1, 2, 3] 1 2 [9, 9]
    [[3, 1, 2], [3, 2]] 1 (by decide)
    [[3, 1, 2], [2, 1, 3]] 1 (by decide)
    [[3, 1, 2], [3, 1, 2]] 1 (by decide)

end ColumnVector
